import Mathlib

/-!
Verification development for the OpenKapitza repository
(src/OpenKapitza/functions.py).

Shallow embedding conventions:
* NumPy floating-point arrays are modelled in exact arithmetic: real entries
  as rationals, complex entries as pairs of rationals (the structure `CQ`
  below).  The transcendental quantities of `define_wavevectors` and
  `hessian_fourier_form` (sqrt 2, pi, exp) are modelled over the real and
  complex numbers of Mathlib.
* A two-dimensional array is modelled as an index function `Nat -> Nat -> a`
  together with its explicit dimensions, or as a `Matrix (Fin n) (Fin n) a`
  when the code only uses algebraic operations.
* `np.inf` markers written into arrays by `mitigate_periodic_effect` are
  modelled by `(⊤ : WithTop ℚ)`; `np.isinf` / `np.isfinite` become equality
  and disequality with `⊤`.
* Boolean-mask row selection (`a[mask]`) is modelled by the list of selected
  row indices (in increasing order, as NumPy produces them) plus the entry
  function of the selected submatrix.
* In-place mutation (`mitigate_periodic_effect` writes into its argument
  arrays) is modelled by explicit state passing: the model exposes the
  post-call contents of the mutated arrays as definitions.
-/

namespace OpenKapitza

open Matrix

/-! ### read_hessian (functions.py lines 33-37)

`np.triu(A, k)` keeps the entries on and above the k-th diagonal,
`np.tril(A, k)` keeps the entries on and below the k-th diagonal.
-/

def np_triu {n : ℕ} (k : ℤ) (A : Matrix (Fin n) (Fin n) ℚ) :
    Matrix (Fin n) (Fin n) ℚ :=
  Matrix.of fun i j => if (i : ℤ) + k ≤ (j : ℤ) then A i j else 0

def np_tril {n : ℕ} (k : ℤ) (A : Matrix (Fin n) (Fin n) ℚ) :
    Matrix (Fin n) (Fin n) ℚ :=
  Matrix.of fun i j => if (j : ℤ) ≤ (i : ℤ) + k then A i j else 0

/-- Lines 34-35 of functions.py:
`hessian_symmetric = (np.triu(h, 0) + np.tril(h, 0).T) / 2` followed by
`hessian = np.triu(hessian_symmetric) + np.triu(hessian_symmetric, 1).T`.
This is the pure symmetrization step of `read_hessian` (the surrounding
`np.loadtxt` file input is I/O and outside the model). -/
def read_hessian_sym {n : ℕ} (A : Matrix (Fin n) (Fin n) ℚ) :
    Matrix (Fin n) (Fin n) ℚ :=
  let hessian_symmetric := (1 / 2 : ℚ) • (np_triu 0 A + (np_tril 0 A)ᵀ)
  np_triu 0 hessian_symmetric + (np_triu 1 hessian_symmetric)ᵀ

/-! ### mitigate_periodic_effect (functions.py lines 140-157)

The Hessian is a square array with `N = 3 * m * r0 * r1 * (2 * r2)` rows
(`m` atoms per unit cell, `rep = [r0, r1, r2]`).  Lines 147-151 execute, for
`io` in `range(3*m)` and with period `P = m*3*(r2*2)`:
  `hessian[io::P] = inf`, `hessian[:, io::P] = inf`,
  `hessian[io + 3*m*(2*r2-1)::P] = inf`, `hessian[:, io + 3*m*(2*r2-1)::P] = inf`.
A row (or column) index `i` is therefore overwritten exactly when
`i % P < 3*m` or `3*m*(2*r2-1) <= i % P`. -/
def hsn_marked (m r2 i : ℕ) : Bool :=
  decide (i % (m * 3 * (r2 * 2)) < m * 3) ||
    decide (m * 3 * (r2 * 2 - 1) ≤ i % (m * 3 * (r2 * 2)))

/-- Contents of the `hessian` array after the masking loop of lines 147-151:
every marked row and every marked column has been overwritten with `np.inf`. -/
def masked_hessian (H : ℕ → ℕ → WithTop ℚ) (m r2 : ℕ) : ℕ → ℕ → WithTop ℚ :=
  fun i j => if hsn_marked m r2 i || hsn_marked m r2 j then ⊤ else H i j

/-- Line 152, `hsn = hessian[~(np.isinf(hessian).all(axis=1))]`:
the indices of the rows that survive (rows that are not entirely `inf`). -/
def hsn_kept_rows (H : ℕ → ℕ → WithTop ℚ) (N m r2 : ℕ) : List ℕ :=
  (List.range N).filter fun i =>
    ! (List.range N).all fun j => decide (masked_hessian H m r2 i j = ⊤)

/-- Line 153, `hsn_matrix = np.transpose(hsn.T[~(np.isinf(hsn.T).all(axis=1))])`:
the indices of the columns that survive (columns that are not entirely `inf`
over the kept rows). -/
def hsn_kept_cols (H : ℕ → ℕ → WithTop ℚ) (N m r2 : ℕ) : List ℕ :=
  (List.range N).filter fun j =>
    ! (hsn_kept_rows H N m r2).all fun i => decide (masked_hessian H m r2 i j = ⊤)

/-- Entry function of the compacted `hsn_matrix` returned by
`mitigate_periodic_effect`; its dimensions are the lengths of
`hsn_kept_rows` and `hsn_kept_cols`. -/
def hsn_matrix_out (H : ℕ → ℕ → WithTop ℚ) (N m r2 : ℕ) : ℕ → ℕ → WithTop ℚ :=
  fun a b =>
    masked_hessian H m r2 ((hsn_kept_rows H N m r2).getD a 0)
      ((hsn_kept_cols H N m r2).getD b 0)

/-- Lines 142-143: `lattice_points[::2*rep[2]] = inf` and
`lattice_points[2*rep[2]-1::2*rep[2]] = inf` mark lattice-point rows whose
index is `0` or `2*r2 - 1` modulo `2*r2`. -/
def lat_marked (r2 i : ℕ) : Bool :=
  decide (i % (2 * r2) = 0) || decide (i % (2 * r2) = 2 * r2 - 1)

/-- Contents of `crystal_info['lattice_points']` after the in-place masking
of lines 142-143 (rows have 3 coordinate columns). -/
def masked_lattice (L : ℕ → ℕ → WithTop ℚ) (r2 : ℕ) : ℕ → ℕ → WithTop ℚ :=
  fun i j => if lat_marked r2 i then ⊤ else L i j

/-- Line 144, `lp = lattice_points[np.isfinite(lattice_points).all(1)]`:
indices of the lattice-point rows that survive (rows that are entirely
finite; rows have 3 columns). -/
def lat_kept_rows (L : ℕ → ℕ → WithTop ℚ) (Lr r2 : ℕ) : List ℕ :=
  (List.range Lr).filter fun i =>
    (List.range 3).all fun j => decide (masked_lattice L r2 i j ≠ ⊤)

/-! ### matrix_decomposition (functions.py lines 184-197) -/

/-- Line 184-185: the fixed 9-offset neighbour stencil `f_idx`. -/
def f_idx : Fin 9 → Fin 3 → ℤ :=
  ![![0, 0, 0], ![0, -1, 0], ![0, 1, 0], ![-1, 0, 0], ![1, 0, 0],
    ![0, -1, 1], ![0, 1, 1], ![-1, 0, 1], ![1, 0, 1]]

/-- Lines 186-187: flat block indices
`(bi2 + f[:,2] - 1) + ((bi1 + f[:,1] - 1) * rep0 + bi0 + f[:,0] - 1) * 2 * rep2`.
Python integers are unbounded, so the result lives in `ℤ` and may be
negative. -/
def elements_idx (bi0 bi1 bi2 r0 r2 : ℤ) : Fin 9 → ℤ :=
  fun i =>
    (bi2 + f_idx i 2 - 1) +
      ((bi1 + f_idx i 1 - 1) * r0 + bi0 + f_idx i 0 - 1) * 2 * r2

/-- Python slice-bound normalization for a sequence of length `len`:
a negative bound counts from the end (clamped below at 0), a nonnegative
bound is clamped above at `len`.  NumPy basic slicing follows exactly these
rules and never raises for out-of-range bounds. -/
def slice_bound (x : ℤ) (len : ℕ) : ℕ :=
  if x < 0 then (((len : ℤ) + x) ⊔ 0).toNat else min x.toNat len

/-- The list of indices selected by the Python slice `a : b` from a sequence
of length `len` (empty when the normalized stop is not after the normalized
start). -/
def py_slice (a b : ℤ) (len : ℕ) : List ℕ :=
  List.range' (slice_bound a len) (slice_bound b len - slice_bound a len)

/-- Row indices of the i-th block extracted on lines 190-194: all nine blocks
use the row slice `3*m*e_0 : 3*m*(e_0 + block_size)` of the reference block
`e_0 = elements_idx 0`. -/
def block_row_idx (N m bs : ℕ) (bi0 bi1 bi2 r0 r2 : ℤ) : List ℕ :=
  py_slice (3 * m * elements_idx bi0 bi1 bi2 r0 r2 0)
    (3 * m * (elements_idx bi0 bi1 bi2 r0 r2 0 + bs)) N

/-- Column indices of the i-th block extracted on lines 190-194: the column
slice `3*m*e_i : 3*m*(e_i + block_size)`. -/
def block_col_idx (N m bs : ℕ) (bi0 bi1 bi2 r0 r2 : ℤ) (i : Fin 9) : List ℕ :=
  py_slice (3 * m * elements_idx bi0 bi1 bi2 r0 r2 i)
    (3 * m * (elements_idx bi0 bi1 bi2 r0 r2 i + bs)) N

/-- Entry function of the i-th extracted block `Hsn[Hsn_keys[i]]`. -/
def block_entry (hsn : ℕ → ℕ → ℚ) (N m bs : ℕ) (bi0 bi1 bi2 r0 r2 : ℤ)
    (i : Fin 9) : ℕ → ℕ → ℚ :=
  fun a b =>
    hsn ((block_row_idx N m bs bi0 bi1 bi2 r0 r2).getD a 0)
      ((block_col_idx N m bs bi0 bi1 bi2 r0 r2 i).getD b 0)

/-! ### define_wavevectors (functions.py lines 217-232) -/

/-- `np.linspace(lo, hi, n, endpoint=True)`: `n` points from `lo` to `hi`
inclusive; for `n = 1` NumPy returns the single point `lo`. -/
noncomputable def np_linspace (lo hi : ℝ) (n : ℕ) : ℕ → ℝ :=
  fun i => if n ≤ 1 then lo else lo + (i : ℝ) * (hi - lo) / ((n : ℝ) - 1)

/-- Lower bound `-sqrt 2 * pi / L` of the sampled transverse wavevector
interval (lines 217-222). -/
noncomputable def wv_lo (L : ℝ) : ℝ := -(Real.sqrt 2 * Real.pi / L)

/-- Upper bound `sqrt 2 * pi / L` of the sampled interval. -/
noncomputable def wv_hi (L : ℝ) : ℝ := Real.sqrt 2 * Real.pi / L

/-- Lines 217-230.  `kx_grid, ky_grid = np.meshgrid(kpoints_x, kpoints_y)`
gives `kx_grid[i, j] = kpoints_x[j]` and `ky_grid[i, j] = kpoints_y[i]`;
flattening is row-major, so flat position `t = i*n + j` carries the pair
`(ky_grid.flatten()[t], kx_grid.flatten()[t]) = (kpoints_y[t / n], kpoints_x[t % n])`.
`kpoints = np.array([ky_grid.flatten(), kx_grid.flatten()])` stacks the two
flattened grids, so the t-th wavevector column is that pair. -/
noncomputable def define_wavevectors (L : ℝ) (n : ℕ) : List (ℝ × ℝ) :=
  (List.range (n * n)).map fun t =>
    (np_linspace (wv_lo L) (wv_hi L) n (t / n), np_linspace (wv_lo L) (wv_hi L) n (t % n))

/-! ### hessian_fourier_form (functions.py lines 252-274) -/

/-- A `BlockSet`: the nine real-space blocks produced by
`matrix_decomposition`, all square of size `3 * natm_per_unitcell * block_size`
(entries complex, as they are consumed by the complex Fourier transform). -/
structure BlockSet (d : ℕ) where
  H0 : Matrix (Fin d) (Fin d) ℂ
  H1 : Matrix (Fin d) (Fin d) ℂ
  H2 : Matrix (Fin d) (Fin d) ℂ
  H3 : Matrix (Fin d) (Fin d) ℂ
  H4 : Matrix (Fin d) (Fin d) ℂ
  T1 : Matrix (Fin d) (Fin d) ℂ
  T2 : Matrix (Fin d) (Fin d) ℂ
  T3 : Matrix (Fin d) (Fin d) ℂ
  T4 : Matrix (Fin d) (Fin d) ℂ

/-- Line 254: `distance_vector = periodicity_length * np.array([[0, 0], [0, -1],
[0, 1], [-1, 0], [1, 0]])`. -/
noncomputable def distance_vector (L : ℝ) : Fin 5 → Fin 2 → ℝ :=
  fun i j => L * (![![0, 0], ![0, -1], ![0, 1], ![-1, 0], ![1, 0]] : Fin 5 → Fin 2 → ℝ) i j

/-- Line 255: `unit_planewave = np.exp(1j * (distance_vector @ wavevector).T)`,
specialized to one wavevector column `k`: the five phase factors
`exp(i * (distance_vector[r] . k))`. -/
noncomputable def unit_planewave (L : ℝ) (k : Fin 2 → ℝ) : Fin 5 → ℂ :=
  fun r => Complex.exp (Complex.I * ((∑ j, distance_vector L r j * k j : ℝ) : ℂ))

/-- Lines 257-264, `fourier_transform`: the phase-weighted sums
`Hsn_fourier = H0*p0 + H1*p1 + H2*p2 + H3*p3 + H4*p4` and
`Hopping_fourier = T1*p1 + T2*p2 + T3*p3 + T4*p4` (NumPy `matrix * scalar`
is elementwise scalar multiplication). -/
noncomputable def fourier_transform {d : ℕ} (p : Fin 5 → ℂ) (B : BlockSet d) :
    Matrix (Fin d) (Fin d) ℂ × Matrix (Fin d) (Fin d) ℂ :=
  (p 0 • B.H0 + p 1 • B.H1 + p 2 • B.H2 + p 3 • B.H3 + p 4 • B.H4,
   p 1 • B.T1 + p 2 • B.T2 + p 3 • B.T3 + p 4 • B.T4)

/-- `hessian_fourier_form` at one wavevector `k`: the record
`{Hsn_fourier, Hopping_fourier}` stored in the output dict for the flat index
of `k` (lines 266-272 map `fourier_transform` over the planewave rows). -/
noncomputable def hessian_fourier_form {d : ℕ} (L : ℝ) (B : BlockSet d)
    (k : Fin 2 → ℝ) : Matrix (Fin d) (Fin d) ℂ × Matrix (Fin d) (Fin d) ℂ :=
  fourier_transform (unit_planewave L k) B

/-! ### Exact complex rationals

`surface_green_func` operates on complex floating-point matrices; the model
uses exact complex rationals (pairs of rationals with complex
multiplication). -/

structure CQ where
  re : ℚ
  im : ℚ
deriving DecidableEq

namespace CQ

instance : Zero CQ := ⟨⟨0, 0⟩⟩

instance : One CQ := ⟨⟨1, 0⟩⟩

instance : Add CQ := ⟨fun x y => ⟨x.re + y.re, x.im + y.im⟩⟩

instance : Neg CQ := ⟨fun x => ⟨-x.re, -x.im⟩⟩

instance : Mul CQ := ⟨fun x y => ⟨x.re * y.re - x.im * y.im, x.re * y.im + x.im * y.re⟩⟩

/-- Complex conjugate. -/
def conj (x : CQ) : CQ := ⟨x.re, -x.im⟩

/-- Exact multiplicative inverse (value 0 at 0). -/
def inv (x : CQ) : CQ :=
  ⟨x.re / (x.re ^ 2 + x.im ^ 2), -x.im / (x.re ^ 2 + x.im ^ 2)⟩

theorem ext {x y : CQ} (hre : x.re = y.re) (him : x.im = y.im) : x = y := by
  cases x
  cases y
  cases hre
  cases him
  rfl

@[simp] theorem zero_re : (0 : CQ).re = 0 := rfl

@[simp] theorem zero_im : (0 : CQ).im = 0 := rfl

@[simp] theorem one_re : (1 : CQ).re = 1 := rfl

@[simp] theorem one_im : (1 : CQ).im = 0 := rfl

@[simp] theorem add_re (x y : CQ) : (x + y).re = x.re + y.re := rfl

@[simp] theorem add_im (x y : CQ) : (x + y).im = x.im + y.im := rfl

@[simp] theorem neg_re (x : CQ) : (-x).re = -x.re := rfl

@[simp] theorem neg_im (x : CQ) : (-x).im = -x.im := rfl

@[simp] theorem mul_re (x y : CQ) : (x * y).re = x.re * y.re - x.im * y.im := rfl

@[simp] theorem mul_im (x y : CQ) : (x * y).im = x.re * y.im + x.im * y.re := rfl

instance : CommRing CQ where
  nsmul := nsmulRec
  zsmul := zsmulRec
  add_assoc x y z := ext (by simp; ring) (by simp; ring)
  zero_add x := ext (by simp) (by simp)
  add_zero x := ext (by simp) (by simp)
  add_comm x y := ext (by simp; ring) (by simp; ring)
  mul_assoc x y z := ext (by simp; ring) (by simp; ring)
  one_mul x := ext (by simp) (by simp)
  mul_one x := ext (by simp) (by simp)
  left_distrib x y z := ext (by simp; ring) (by simp; ring)
  right_distrib x y z := ext (by simp; ring) (by simp; ring)
  mul_comm x y := ext (by simp; ring) (by simp; ring)
  zero_mul x := ext (by simp) (by simp)
  mul_zero x := ext (by simp) (by simp)
  neg_add_cancel x := ext (by simp) (by simp)

end CQ

/-! ### surface_green_func (functions.py lines 277-342) -/

/-- Conjugate transpose `A.conj().T` of a complex-rational matrix. -/
def ctrans {d : ℕ} (A : Matrix (Fin d) (Fin d) CQ) : Matrix (Fin d) (Fin d) CQ :=
  Matrix.of fun i j => (A j i).conj

/-- Exact-arithmetic model of `jnp.linalg.inv`: the adjugate formula
`det⁻¹ • adjugate` with the exact complex-rational inverse (it returns the
true inverse whenever the matrix is invertible; jnp returns garbage values on
a singular input, here the scalar inverse of 0 is 0). -/
def jnp_inv {d : ℕ} (A : Matrix (Fin d) (Fin d) CQ) : Matrix (Fin d) (Fin d) CQ :=
  CQ.inv A.det • A.adjugate

/-- `omega**2 * (1 + 1j*delta) * np.eye(3*natm*block_size)` (line 308). -/
def Z_mat (ω δ : ℚ) (d : ℕ) : Matrix (Fin d) (Fin d) CQ :=
  Matrix.of fun i j => if i = j then (⟨ω ^ 2, ω ^ 2 * δ⟩ : CQ) else 0

/-- `omega**2 * np.eye(3*natm*block_size)` (line 316); note the missing
`(1 + 1j*delta)` factor compared with `Z_mat`. -/
def omega_sq_eye (ω : ℚ) (d : ℕ) : Matrix (Fin d) (Fin d) CQ :=
  Matrix.of fun i j => if i = j then (⟨ω ^ 2, 0⟩ : CQ) else 0

/-- State of the decimation loop of `iter_func` (lines 285-306).  The
counter `io` is part of the state; the loop body (lines 293-302) never
modifies it — the only increment, line 303, runs after the loop has
exited. -/
structure DecState (d : ℕ) where
  e_surface : Matrix (Fin d) (Fin d) CQ
  e : Matrix (Fin d) (Fin d) CQ
  alpha : Matrix (Fin d) (Fin d) CQ
  beta : Matrix (Fin d) (Fin d) CQ
  io : ℕ

/-- Lines 287-292: `e_surface = Z - Hsn_bulk['Hsn_fourier']`, `e` a copy of
it, `alpha = Hsn_surface['Hopping_fourier']`, `beta = alpha.conj().T`,
`io = 1`. -/
def dec_init {d : ℕ} (Z H0bulk Tsurf : Matrix (Fin d) (Fin d) CQ) : DecState d :=
  ⟨Z - H0bulk, Z - H0bulk, Tsurf, ctrans Tsurf, 1⟩

/-- One pass of the loop body, lines 294-299:
`a = inv(e) @ alpha`, `b = inv(e) @ beta`, `e_surface += alpha @ b`,
`e += beta @ a + alpha @ b`, `alpha = alpha @ a`, `beta = beta @ b`.
`io` is left unchanged, exactly as in the source. -/
def dec_step {d : ℕ} (s : DecState d) : DecState d :=
  let a := jnp_inv s.e * s.alpha
  let b := jnp_inv s.e * s.beta
  { e_surface := s.e_surface + s.alpha * b
    e := s.e + s.beta * a + s.alpha * b
    alpha := s.alpha * a
    beta := s.beta * b
    io := s.io }

/-- State after `k` executions of the loop body. -/
def dec_iter {d : ℕ} (Z H0bulk Tsurf : Matrix (Fin d) (Fin d) CQ) (k : ℕ) :
    DecState d :=
  dec_step^[k] (dec_init Z H0bulk Tsurf)

/-- Squared Frobenius norm of the difference of the real parts of two
matrices.  The convergence test of line 300 compares
`np.linalg.norm(e_surface.real - deepcopy_e_surface.real)` with `1e-6`;
since both sides are nonnegative this is equivalent to comparing the squared
norm with `1e-12`, which is exact over `ℚ`. -/
def re_norm_sq {d : ℕ} (A B : Matrix (Fin d) (Fin d) CQ) : ℚ :=
  ∑ i, ∑ j, ((A i j).re - (B i j).re) ^ 2

/-- The first disjunct of the break test of line 300 evaluated after body
pass `k + 1`: the snapshot `deepcopy_e_surface` at that moment holds the
`e_surface` of the previous pass (or the initial `e_surface` before the first
pass). -/
def conv_at {d : ℕ} (Z H0bulk Tsurf : Matrix (Fin d) (Fin d) CQ) (k : ℕ) : Prop :=
  re_norm_sq (dec_iter Z H0bulk Tsurf (k + 1)).e_surface
      (dec_iter Z H0bulk Tsurf k).e_surface <
    (1 / 1000000 : ℚ) ^ 2

instance {d : ℕ} (Z H0bulk Tsurf : Matrix (Fin d) (Fin d) CQ) (k : ℕ) :
    Decidable (conv_at Z H0bulk Tsurf k) := by
  unfold conv_at
  infer_instance

/-- The full break test of line 300, evaluated after body pass `k + 1`:
`np.linalg.norm(e_surface.real - deepcopy_e_surface.real) < 1e-6 or io > 5000`. -/
def break_at {d : ℕ} (Z H0bulk Tsurf : Matrix (Fin d) (Fin d) CQ) (k : ℕ) : Prop :=
  conv_at Z H0bulk Tsurf k ∨ (dec_iter Z H0bulk Tsurf (k + 1)).io > 5000

instance {d : ℕ} (Z H0bulk Tsurf : Matrix (Fin d) (Fin d) CQ) (k : ℕ) :
    Decidable (break_at Z H0bulk Tsurf k) := by
  unfold break_at
  infer_instance

/-- The value of `e_surface` returned by `iter_func` when the loop exits:
the loop runs body passes until the break test first succeeds (pass number
`Nat.find h + 1`) and returns the current `e_surface`. -/
def iter_func_result {d : ℕ} (Z H0bulk Tsurf : Matrix (Fin d) (Fin d) CQ)
    (h : ∃ k, break_at Z H0bulk Tsurf k) : Matrix (Fin d) (Fin d) CQ :=
  (dec_iter Z H0bulk Tsurf (Nat.find h + 1)).e_surface

/-- Lines 315-320, `g_surf`: `omega_val**2 * np.eye(3*natm*block_size)
- Hsn_bulk['Hsn_fourier'] - Hsn_bulk['Hopping_fourier'] @ inv(e_surface)
@ Hsn_bulk['Hopping_fourier'].conj().T`. -/
def g_surf {d : ℕ} (ω : ℚ) (e_surface H0bulk Tbulk : Matrix (Fin d) (Fin d) CQ) :
    Matrix (Fin d) (Fin d) CQ :=
  omega_sq_eye ω d - H0bulk - Tbulk * jnp_inv e_surface * ctrans Tbulk

/-- One lead entry of `decimation_iteration` (lines 282-329) at frequency
`omega`: the lead's bulk blocks are `(H0bulk, Tbulk)` (keys `Hsn_fourier` and
`Hopping_fourier` of the bulk dict) and the surface hopping block is `Tsurf`
(`Hopping_fourier` of the surface dict; its `Hsn_fourier` entry is never
read).  `iter_func` runs on `Z - H0bulk` with hoppings `Tsurf`, then `g_surf`
combines the converged `e_surface` with the bulk blocks.  The matrices are
square of size `d = 3 * natm_per_unitcell * block_size`. -/
def decimation_entry {d : ℕ} (ω δ : ℚ) (H0bulk Tbulk Tsurf : Matrix (Fin d) (Fin d) CQ)
    (h : ∃ k, break_at (Z_mat ω δ d) H0bulk Tsurf k) : Matrix (Fin d) (Fin d) CQ :=
  g_surf ω (iter_func_result (Z_mat ω δ d) H0bulk Tsurf h) H0bulk Tbulk

/-- Concrete 3-by-3 on-site test block (`natm_per_unitcell = block_size = 1`):
the imaginary identity `i * I`.  At `omega = delta = 1` it satisfies
`Z_mat 1 1 3 - test_H0 = 1`, which makes the surface-Green's-function values
at this input exactly computable. -/
def test_H0 : Matrix (Fin 3) (Fin 3) CQ :=
  Matrix.of fun i j => if i = j then (⟨0, 1⟩ : CQ) else 0

/-! ## Theorems -/

/-- Entrywise closed form of the symmetrization of `read_hessian`: it is the
symmetric average of the matrix and its transpose. -/
theorem read_hessian_sym_apply {n : ℕ} (A : Matrix (Fin n) (Fin n) ℚ) (i j : Fin n) :
    read_hessian_sym A i j = (A i j + A j i) / 2 := by
  simp only [read_hessian_sym, np_triu, np_tril, Matrix.add_apply, Matrix.transpose_apply,
    Matrix.smul_apply, Matrix.of_apply, smul_eq_mul]
  split_ifs <;> first | ring1 | (exfalso; omega)

/-- C9: the symmetrization performed by read_hessian is idempotent — applying
the transform (average of upper and transposed lower triangles, then
reconstruction from the upper triangle) to its own output yields the same
matrix as applying it once. -/
theorem claim_C9_symmetrization_idempotent :
    ∀ (n : ℕ) (A : Matrix (Fin n) (Fin n) ℚ),
      read_hessian_sym (read_hessian_sym A) = read_hessian_sym A := by
  intro n A
  ext i j
  rw [read_hessian_sym_apply, read_hessian_sym_apply, read_hessian_sym_apply]
  ring

theorem masked_hessian_symm {H : ℕ → ℕ → WithTop ℚ} (hH : ∀ i j, H i j = H j i)
    (m r2 i j : ℕ) : masked_hessian H m r2 i j = masked_hessian H m r2 j i := by
  unfold masked_hessian
  rw [Bool.or_comm, hH i j]

theorem mem_hsn_kept_rows {H : ℕ → ℕ → WithTop ℚ} {N m r2 i : ℕ} :
    i ∈ hsn_kept_rows H N m r2 ↔
      i < N ∧ ∃ j < N, masked_hessian H m r2 i j ≠ ⊤ := by
  unfold hsn_kept_rows
  simp [List.mem_filter, List.mem_range, List.all_eq_true]

theorem hsn_kept_cols_eq_rows {H : ℕ → ℕ → WithTop ℚ} (hH : ∀ i j, H i j = H j i)
    (N m r2 : ℕ) : hsn_kept_cols H N m r2 = hsn_kept_rows H N m r2 := by
  unfold hsn_kept_cols
  conv_rhs => rw [hsn_kept_rows]
  apply List.filter_congr
  intro j hj
  rw [List.mem_range] at hj
  suffices hs : ((hsn_kept_rows H N m r2).all fun i =>
      decide (masked_hessian H m r2 i j = ⊤)) =
      ((List.range N).all fun c => decide (masked_hessian H m r2 j c = ⊤)) from
    congrArg Bool.not hs
  rw [Bool.eq_iff_iff, List.all_eq_true, List.all_eq_true]
  simp only [decide_eq_true_eq, List.mem_range]
  constructor
  · intro hall c hc
    by_contra hne
    have hcj : masked_hessian H m r2 c j ≠ ⊤ := by
      rw [masked_hessian_symm hH]
      exact hne
    have hc_kept : c ∈ hsn_kept_rows H N m r2 :=
      mem_hsn_kept_rows.mpr ⟨hc, j, hj, hcj⟩
    exact hcj (hall c hc_kept)
  · intro hall i hi
    have hiN : i < N := (mem_hsn_kept_rows.mp hi).1
    rw [masked_hessian_symm hH]
    exact hall i hiN

/-- C6: the conditioned Hessian is exactly symmetric — for every square
rational input matrix the matrix produced by read_hessian's symmetrization
equals its own transpose entry for entry, and for every exactly symmetric
input Hessian the compacted hsn_matrix produced by mitigate_periodic_effect
is also exactly symmetric (the kept row-index and column-index lists
coincide). -/
theorem claim_C6_conditioned_symmetric :
    (∀ (n : ℕ) (A : Matrix (Fin n) (Fin n) ℚ),
      (read_hessian_sym A)ᵀ = read_hessian_sym A) ∧
    (∀ (H : ℕ → ℕ → WithTop ℚ) (N m r2 : ℕ), (∀ i j, H i j = H j i) →
      ∀ a b, hsn_matrix_out H N m r2 a b = hsn_matrix_out H N m r2 b a) := by
  constructor
  · intro n A
    ext i j
    rw [Matrix.transpose_apply, read_hessian_sym_apply, read_hessian_sym_apply]
    ring
  · intro H N m r2 hH a b
    unfold hsn_matrix_out
    rw [hsn_kept_cols_eq_rows hH, masked_hessian_symm hH]

/-- Witness for C6: the concrete all-zero 6-by-6 Hessian is symmetric and its
compacted matrix is symmetric at the sample entry pair (2, 3) / (3, 2). -/
theorem claim_C6_witness :
    (∀ (i j : ℕ), (fun (_ _ : ℕ) => (0 : WithTop ℚ)) i j =
      (fun (_ _ : ℕ) => (0 : WithTop ℚ)) j i) ∧
    hsn_matrix_out (fun (_ _ : ℕ) => (0 : WithTop ℚ)) 6 1 1 2 3 =
      hsn_matrix_out (fun (_ _ : ℕ) => (0 : WithTop ℚ)) 6 1 1 3 2 :=
  ⟨fun _ _ => rfl,
    claim_C6_conditioned_symmetric.2 (fun (_ _ : ℕ) => (0 : WithTop ℚ)) 6 1 1
      (fun _ _ => rfl) 2 3⟩

/-- C7: at the zero wavevector all five plane-wave phase factors equal 1
exactly, so the Fourier blocks are the plain sums `H0 + H1 + H2 + H3 + H4`
and `T1 + T2 + T3 + T4`. -/
theorem claim_C7_zero_wavevector :
    ∀ (d : ℕ) (L : ℝ) (B : BlockSet d),
      (∀ r, unit_planewave L (fun _ => 0) r = 1) ∧
      hessian_fourier_form L B (fun _ => 0) =
        (B.H0 + B.H1 + B.H2 + B.H3 + B.H4, B.T1 + B.T2 + B.T3 + B.T4) := by
  intro d L B
  have hp : ∀ r, unit_planewave L (fun _ => (0 : ℝ)) r = 1 := by
    intro r
    unfold unit_planewave
    simp
  refine ⟨hp, ?_⟩
  unfold hessian_fourier_form fourier_transform
  rw [hp 0, hp 1, hp 2, hp 3, hp 4]
  simp

theorem dec_step_io {d : ℕ} (s : DecState d) : (dec_step s).io = s.io := rfl

theorem dec_iter_io {d : ℕ} (Z H0bulk Tsurf : Matrix (Fin d) (Fin d) CQ) (k : ℕ) :
    (dec_iter Z H0bulk Tsurf k).io = 1 := by
  induction k with
  | zero => rfl
  | succ k ih =>
    unfold dec_iter at ih ⊢
    rw [Function.iterate_succ_apply', dec_step_io]
    exact ih

/-- C1: the iteration-cap disjunct of the break test can never fire.  The
loop body never touches `io` (the only increment, line 303, is outside the
loop), so `io` is 1 at every break test and `io > 5000` is always false: the
break condition is equivalent to the norm test alone.  Consequently the claim
that the decimation loop always stops by the 5000-iteration hard cap is false
of the code: any input whose norm test never succeeds (for example one where
`Z - Hsn_fourier` is singular, so that `jnp.linalg.inv` floods the iterates
with non-finite values and the comparison `norm < 1e-6` is never true) loops
forever. -/
theorem claim_C1_iteration_cap_dead :
    ∀ (d : ℕ) (Z H0bulk Tsurf : Matrix (Fin d) (Fin d) CQ) (k : ℕ),
      (dec_iter Z H0bulk Tsurf k).io = 1 ∧
      (break_at Z H0bulk Tsurf k ↔ conv_at Z H0bulk Tsurf k) := by
  intro d Z H0 T k
  refine ⟨dec_iter_io _ _ _ _, ?_⟩
  unfold break_at
  constructor
  · rintro (h | h)
    · exact h
    · rw [dec_iter_io] at h
      omega
  · exact Or.inl

@[simp] theorem CQ.sub_re (x y : CQ) : (x - y).re = x.re - y.re := by
  rw [sub_eq_add_neg, CQ.add_re, CQ.neg_re]
  ring

@[simp] theorem CQ.sub_im (x y : CQ) : (x - y).im = x.im - y.im := by
  rw [sub_eq_add_neg, CQ.add_im, CQ.neg_im]
  ring

theorem ctrans_zero {d : ℕ} : ctrans (0 : Matrix (Fin d) (Fin d) CQ) = 0 := by
  ext i j
  apply CQ.ext
  · simp [ctrans, CQ.conj]
  · simp [ctrans, CQ.conj]

theorem re_norm_sq_self {d : ℕ} (A : Matrix (Fin d) (Fin d) CQ) :
    re_norm_sq A A = 0 := by
  simp [re_norm_sq]

theorem dec_iter_zero_hopping {d : ℕ} (Z H0bulk : Matrix (Fin d) (Fin d) CQ) (k : ℕ) :
    dec_iter Z H0bulk 0 k = dec_init Z H0bulk 0 := by
  induction k with
  | zero => rfl
  | succ k ih =>
    unfold dec_iter at ih ⊢
    rw [Function.iterate_succ_apply', ih]
    show dec_step (dec_init Z H0bulk 0) = dec_init Z H0bulk 0
    unfold dec_step dec_init
    rw [ctrans_zero]
    simp

theorem break_at_zero_hopping {d : ℕ} (Z H0bulk : Matrix (Fin d) (Fin d) CQ) :
    break_at Z H0bulk 0 0 := by
  unfold break_at conv_at
  left
  rw [dec_iter_zero_hopping, dec_iter_zero_hopping, re_norm_sq_self]
  norm_num

theorem conv_exists_zero {d : ℕ} (Z H0bulk : Matrix (Fin d) (Fin d) CQ) :
    ∃ k, break_at Z H0bulk 0 k :=
  ⟨0, break_at_zero_hopping Z H0bulk⟩

theorem decimation_entry_zero_hopping {d : ℕ} (ω δ : ℚ)
    (H0bulk : Matrix (Fin d) (Fin d) CQ)
    (h : ∃ k, break_at (Z_mat ω δ d) H0bulk 0 k) :
    decimation_entry ω δ H0bulk 0 0 h = omega_sq_eye ω d - H0bulk := by
  unfold decimation_entry g_surf
  rw [ctrans_zero]
  simp

/-- C3 (amended): if the hopping blocks are zero then for every frequency the
decimation iteration converges at the very first break test (one body pass,
`Nat.find h = 0`), and the returned surface Green's function equals
`omega^2 * I - H0` — the code builds it from `omega_val**2 * np.eye(...)`,
without the `(1 + i*delta)` factor of `Z` and without taking a final matrix
inverse. -/
theorem claim_C3_zero_hopping :
    ∀ (d : ℕ) (ω δ : ℚ) (H0bulk : Matrix (Fin d) (Fin d) CQ),
      break_at (Z_mat ω δ d) H0bulk 0 0 ∧
      ∀ (h : ∃ k, break_at (Z_mat ω δ d) H0bulk 0 k),
        Nat.find h = 0 ∧
        decimation_entry ω δ H0bulk 0 0 h = omega_sq_eye ω d - H0bulk := by
  intro d ω δ H0
  refine ⟨break_at_zero_hopping _ _, fun h =>
    ⟨(Nat.find_eq_zero h).mpr (break_at_zero_hopping _ _),
      decimation_entry_zero_hopping ω δ H0 h⟩⟩

/-- Witness for C3: the concrete zero-hopping input `test_H0` at
`omega = delta = 1` converges at the first test and returns
`omega^2 * I - test_H0`. -/
theorem claim_C3_witness :
    Nat.find (conv_exists_zero (Z_mat 1 1 3) test_H0) = 0 ∧
    decimation_entry 1 1 test_H0 0 0 (conv_exists_zero (Z_mat 1 1 3) test_H0) =
      omega_sq_eye 1 3 - test_H0 :=
  (claim_C3_zero_hopping 3 1 1 test_H0).2 (conv_exists_zero (Z_mat 1 1 3) test_H0)

theorem Z_mat_sub_test_H0 : Z_mat 1 1 3 - test_H0 = (1 : Matrix (Fin 3) (Fin 3) CQ) := by
  ext i j
  simp only [Matrix.sub_apply, Z_mat, test_H0, Matrix.of_apply, Matrix.one_apply]
  split_ifs
  · apply CQ.ext <;> simp
  · apply CQ.ext <;> simp

theorem jnp_inv_one {d : ℕ} : jnp_inv (1 : Matrix (Fin d) (Fin d) CQ) = 1 := by
  unfold jnp_inv
  rw [Matrix.det_one, Matrix.adjugate_one]
  have h1 : CQ.inv 1 = 1 := by
    apply CQ.ext <;> norm_num [CQ.inv]
  rw [h1, one_smul]

/-- C3 counterexample: at `omega = delta = 1` with on-site block
`test_H0 = i*I` and zero hopping, the code returns `omega^2*I - test_H0`
(entry `(0,0)` equal to `1 - i`), which differs from the claimed
`(Z - H0)⁻¹ = 1⁻¹ = I` (entry `(0,0)` equal to `1`). -/
theorem claim_C3_counterexample :
    decimation_entry 1 1 test_H0 0 0 (conv_exists_zero (Z_mat 1 1 3) test_H0) ≠
      jnp_inv (Z_mat 1 1 3 - test_H0) := by
  rw [decimation_entry_zero_hopping, Z_mat_sub_test_H0, jnp_inv_one]
  intro heq
  have h00 := congrFun (congrFun heq 0) 0
  have him := congrArg CQ.im h00
  simp [omega_sq_eye, test_H0, Matrix.sub_apply, Matrix.one_apply] at him

/-- C2 (amended): for every input on which the decimation iteration
converges, the returned surface Green's function equals
`omega^2 * I - Hsn_fourier - Hopping_fourier * e_surface⁻¹ * Hopping_fourier^†`
with `e_surface` the value of the iteration at the first successful break
test; the prefactor of the identity is `omega^2` (line 316), not the
`Z = omega^2 * (1 + i*delta) * I` used inside the iteration itself. -/
theorem claim_C2_g_surface_formula :
    ∀ (d : ℕ) (ω δ : ℚ) (H0bulk Tbulk Tsurf : Matrix (Fin d) (Fin d) CQ)
      (h : ∃ k, break_at (Z_mat ω δ d) H0bulk Tsurf k),
      decimation_entry ω δ H0bulk Tbulk Tsurf h =
        omega_sq_eye ω d - H0bulk -
          Tbulk *
              jnp_inv ((dec_iter (Z_mat ω δ d) H0bulk Tsurf (Nat.find h + 1)).e_surface) *
            ctrans Tbulk := by
  intro d ω δ H0 Tb Ts h
  rfl

/-- Witness for C2: the formula evaluated at the concrete converging input
`test_H0` with zero hopping at `omega = delta = 1`. -/
theorem claim_C2_witness :
    decimation_entry 1 1 test_H0 0 0 (conv_exists_zero (Z_mat 1 1 3) test_H0) =
      omega_sq_eye 1 3 - test_H0 -
        0 *
            jnp_inv ((dec_iter (Z_mat 1 1 3) test_H0 0
              (Nat.find (conv_exists_zero (Z_mat 1 1 3) test_H0) + 1)).e_surface) *
          ctrans 0 :=
  claim_C2_g_surface_formula 3 1 1 test_H0 0 0 (conv_exists_zero (Z_mat 1 1 3) test_H0)

/-- C2 counterexample: at `omega = delta = 1` with on-site block
`test_H0 = i*I` and zero hopping the code returns `omega^2*I - test_H0`
(entry `(0,0)` equal to `1 - i`), whereas the claimed formula with
`Z = omega^2*(1 + i*delta)*I` evaluates to `Z - test_H0` (entry `(0,0)`
equal to `1`). -/
theorem claim_C2_counterexample :
    decimation_entry 1 1 test_H0 0 0 (conv_exists_zero (Z_mat 1 1 3) test_H0) ≠
      Z_mat 1 1 3 - test_H0 -
        0 *
            jnp_inv (iter_func_result (Z_mat 1 1 3) test_H0 0
              (conv_exists_zero (Z_mat 1 1 3) test_H0)) *
          ctrans 0 := by
  rw [decimation_entry_zero_hopping]
  simp only [zero_mul, mul_zero, sub_zero]
  intro heq
  have h00 := congrFun (congrFun heq 0) 0
  have him := congrArg CQ.im h00
  simp [omega_sq_eye, Z_mat, test_H0, Matrix.sub_apply] at him

theorem countP_range_band (a b N : ℕ) :
    (List.range N).countP (fun i => decide (a ≤ i ∧ i < b)) = min b N - min a N := by
  induction N with
  | zero => simp
  | succ N ih =>
    rw [List.range_succ, List.countP_append, ih]
    simp only [List.countP_cons, List.countP_nil]
    by_cases hp : a ≤ N ∧ N < b
    · rw [if_pos (by simpa using hp)]
      omega
    · rw [if_neg (by simpa using hp)]
      omega

theorem countP_range_mod_band (a b P k : ℕ) :
    (List.range (k * P)).countP (fun i => decide (a ≤ i % P ∧ i % P < b)) =
      k * (List.range P).countP (fun i => decide (a ≤ i % P ∧ i % P < b)) := by
  induction k with
  | zero => simp
  | succ k ih =>
    have hsplit : (k + 1) * P = k * P + P := by ring
    rw [hsplit, List.range_add, List.countP_append, ih]
    have hmap : ((List.range P).map fun x => k * P + x).countP
          (fun i => decide (a ≤ i % P ∧ i % P < b)) =
        (List.range P).countP (fun i => decide (a ≤ i % P ∧ i % P < b)) := by
      rw [List.countP_map]
      apply List.countP_congr
      intro x _
      have h : (k * P + x) % P = x % P := by
        rw [Nat.add_comm, Nat.add_mul_mod_self_right]
      simp [Function.comp, h]
    rw [hmap]
    ring

theorem hsn_unmarked_iff (m r2 i : ℕ) :
    (!hsn_marked m r2 i) =
      decide (m * 3 ≤ i % (m * 3 * (r2 * 2)) ∧
        i % (m * 3 * (r2 * 2)) < m * 3 * (r2 * 2 - 1)) := by
  unfold hsn_marked
  rw [Bool.eq_iff_iff]
  simp only [Bool.not_or, Bool.and_eq_true, Bool.not_eq_true', decide_eq_false_iff_not,
    decide_eq_true_eq]
  omega

theorem band_count_formula (m r2 R : ℕ) (h2 : 1 ≤ r2) :
    R * ((List.range (m * 3 * (r2 * 2))).countP fun i =>
        decide (m * 3 ≤ i % (m * 3 * (r2 * 2)) ∧
          i % (m * 3 * (r2 * 2)) < m * 3 * (r2 * 2 - 1))) =
      3 * m * (R * (2 * r2) - 2 * R) := by
  have hmod : ∀ i ∈ List.range (m * 3 * (r2 * 2)),
      (decide (m * 3 ≤ i % (m * 3 * (r2 * 2)) ∧
        i % (m * 3 * (r2 * 2)) < m * 3 * (r2 * 2 - 1)) = true) ↔
      (decide (m * 3 ≤ i ∧ i < m * 3 * (r2 * 2 - 1)) = true) := by
    intro i hi
    rw [List.mem_range] at hi
    rw [Nat.mod_eq_of_lt hi]
  rw [List.countP_congr hmod, countP_range_band]
  obtain ⟨s, rfl⟩ : ∃ s, r2 = s + 1 := ⟨r2 - 1, by omega⟩
  have e1 : m * 3 * ((s + 1) * 2 - 1) = m * 3 * (2 * s) + m * 3 := by
    have h : (s + 1) * 2 - 1 = 2 * s + 1 := by omega
    rw [h]
    ring
  have e2 : m * 3 * ((s + 1) * 2) = m * 3 * (2 * s) + m * 3 + m * 3 := by ring
  rw [e1, e2]
  have hmin1 : min (m * 3 * (2 * s) + m * 3) (m * 3 * (2 * s) + m * 3 + m * 3) =
      m * 3 * (2 * s) + m * 3 := by omega
  have hmin2 : min (m * 3) (m * 3 * (2 * s) + m * 3 + m * 3) = m * 3 := by omega
  rw [hmin1, hmin2]
  have e3 : m * 3 * (2 * s) + m * 3 - m * 3 = m * 3 * (2 * s) := by omega
  rw [e3]
  have e4 : R * (2 * (s + 1)) - 2 * R = 2 * (R * s) := by
    have h : R * (2 * (s + 1)) = 2 * (R * s) + 2 * R := by ring
    omega
  rw [e4]
  ring

theorem hsn_marked_r2_one (m j : ℕ) : hsn_marked m 1 j = true := by
  unfold hsn_marked
  rw [Bool.or_eq_true]
  simp only [decide_eq_true_eq]
  omega

theorem hsn_kept_rows_r2_one (H : ℕ → ℕ → WithTop ℚ) (N m : ℕ) :
    hsn_kept_rows H N m 1 = [] := by
  unfold hsn_kept_rows
  apply List.filter_eq_nil_iff.mpr
  intro i _
  simp only [Bool.not_eq_true', Bool.not_eq_false]
  rw [List.all_eq_true]
  intro j _
  unfold masked_hessian
  simp [hsn_marked_r2_one]

theorem hsn_kept_cols_r2_one (H : ℕ → ℕ → WithTop ℚ) (N m : ℕ) :
    hsn_kept_cols H N m 1 = [] := by
  unfold hsn_kept_cols
  rw [hsn_kept_rows_r2_one]
  simp

theorem hsn_marked_M3_false (m r2 : ℕ) (hm : 1 ≤ m) (hr2 : 2 ≤ r2) :
    hsn_marked m r2 (m * 3) = false := by
  unfold hsn_marked
  have hlt : m * 3 < m * 3 * (r2 * 2) :=
    (Nat.lt_mul_iff_one_lt_right (by omega)).mpr (by omega)
  rw [Nat.mod_eq_of_lt hlt]
  simp only [Bool.or_eq_false_iff, decide_eq_false_iff_not]
  obtain ⟨s, rfl⟩ : ∃ s, r2 = s + 2 := ⟨r2 - 2, by omega⟩
  constructor
  · omega
  · have h : m * 3 * ((s + 2) * 2 - 1) = m * 3 * (2 * s) + 9 * m := by
      have hs : (s + 2) * 2 - 1 = 2 * s + 3 := by omega
      rw [hs]
      ring
    omega

theorem hsn_kept_rows_eq (H : ℕ → ℕ → WithTop ℚ) (N m r2 : ℕ)
    (hm : 1 ≤ m) (hr2 : 2 ≤ r2) (hMN : m * 3 < N)
    (hfin : ∀ i j, i < N → j < N → H i j ≠ ⊤) :
    hsn_kept_rows H N m r2 = (List.range N).filter fun i => !hsn_marked m r2 i := by
  unfold hsn_kept_rows
  apply List.filter_congr
  intro i hi
  rw [List.mem_range] at hi
  rw [Bool.eq_iff_iff, Bool.not_eq_true', Bool.not_eq_true', List.all_eq_false]
  constructor
  · rintro ⟨j, _, hpj⟩
    simp only [decide_eq_true_eq] at hpj
    unfold masked_hessian at hpj
    by_contra hmarked
    rw [Bool.not_eq_false] at hmarked
    rw [hmarked, Bool.true_or, if_pos rfl] at hpj
    exact hpj rfl
  · intro hunmarked
    refine ⟨m * 3, List.mem_range.mpr hMN, ?_⟩
    simp only [decide_eq_true_eq]
    unfold masked_hessian
    rw [hunmarked, hsn_marked_M3_false m r2 hm hr2]
    simp only [Bool.or_self, Bool.false_eq_true, if_false]
    exact hfin i (m * 3) hi hMN

theorem hsn_kept_cols_eq (H : ℕ → ℕ → WithTop ℚ) (N m r2 : ℕ)
    (hm : 1 ≤ m) (hr2 : 2 ≤ r2) (hMN : m * 3 < N)
    (hfin : ∀ i j, i < N → j < N → H i j ≠ ⊤) :
    hsn_kept_cols H N m r2 = (List.range N).filter fun j => !hsn_marked m r2 j := by
  unfold hsn_kept_cols
  apply List.filter_congr
  intro j hj
  rw [List.mem_range] at hj
  rw [Bool.eq_iff_iff, Bool.not_eq_true', Bool.not_eq_true', List.all_eq_false]
  constructor
  · rintro ⟨i, hi_mem, hpi⟩
    simp only [decide_eq_true_eq] at hpi
    unfold masked_hessian at hpi
    by_contra hmarked
    rw [Bool.not_eq_false] at hmarked
    rw [hmarked, Bool.or_true, if_pos rfl] at hpi
    exact hpi rfl
  · intro hunmarked
    have hM3_kept : m * 3 ∈ hsn_kept_rows H N m r2 :=
      mem_hsn_kept_rows.mpr ⟨hMN, j, hj, by
        unfold masked_hessian
        rw [hunmarked, hsn_marked_M3_false m r2 hm hr2]
        simp only [Bool.or_self, Bool.false_eq_true, if_false]
        exact hfin (m * 3) j hMN hj⟩
    refine ⟨m * 3, hM3_kept, ?_⟩
    simp only [decide_eq_true_eq]
    unfold masked_hessian
    rw [hunmarked, hsn_marked_M3_false m r2 hm hr2]
    simp only [Bool.or_self, Bool.false_eq_true, if_false]
    exact hfin (m * 3) j hMN hj

theorem unmarked_filter_length (H : ℕ → ℕ → WithTop ℚ) (r0 r1 r2 m N : ℕ)
    (h2 : 1 ≤ r2) (hN : N = 3 * m * (r0 * r1 * (2 * r2))) :
    ((List.range N).filter fun i => !hsn_marked m r2 i).length =
      3 * m * (r0 * r1 * (2 * r2) - 2 * (r0 * r1)) := by
  rw [(List.countP_eq_length_filter _ _).symm]
  have hpred : ∀ i ∈ List.range N,
      ((!hsn_marked m r2 i) = true) ↔
      ((fun i => decide (m * 3 ≤ i % (m * 3 * (r2 * 2)) ∧
          i % (m * 3 * (r2 * 2)) < m * 3 * (r2 * 2 - 1))) i = true) := by
    intro i _
    rw [hsn_unmarked_iff]
  rw [List.countP_congr hpred]
  have hNP : N = (r0 * r1) * (m * 3 * (r2 * 2)) := by
    rw [hN]
    ring
  rw [hNP, countP_range_mod_band, band_count_formula m r2 (r0 * r1) h2]

theorem lat_unmarked_iff (r2 i : ℕ) (h2 : 1 ≤ r2) :
    (!lat_marked r2 i) =
      decide (1 ≤ i % (2 * r2) ∧ i % (2 * r2) < 2 * r2 - 1) := by
  unfold lat_marked
  have hrho : i % (2 * r2) < 2 * r2 := Nat.mod_lt _ (by omega)
  rw [Bool.eq_iff_iff]
  simp only [Bool.not_or, Bool.and_eq_true, Bool.not_eq_true', decide_eq_false_iff_not,
    decide_eq_true_eq]
  omega

theorem lat_kept_rows_eq (L : ℕ → ℕ → WithTop ℚ) (Lr r2 : ℕ)
    (hLfin : ∀ i j, i < Lr → j < 3 → L i j ≠ ⊤) :
    lat_kept_rows L Lr r2 = (List.range Lr).filter fun i => !lat_marked r2 i := by
  unfold lat_kept_rows
  apply List.filter_congr
  intro i hi
  rw [List.mem_range] at hi
  rw [Bool.eq_iff_iff, List.all_eq_true, Bool.not_eq_true']
  constructor
  · intro hall
    by_contra hmarked
    rw [Bool.not_eq_false] at hmarked
    have h0 := hall 0 (by simp)
    simp only [decide_eq_true_eq] at h0
    unfold masked_lattice at h0
    rw [hmarked, if_pos rfl] at h0
    exact h0 rfl
  · intro hunmarked j hj
    rw [List.mem_range] at hj
    simp only [decide_eq_true_eq]
    unfold masked_lattice
    rw [hunmarked]
    simp only [Bool.false_eq_true, if_false]
    exact hLfin i j hi hj

theorem lat_filter_length (r0 r1 r2 Lr : ℕ) (h2 : 1 ≤ r2)
    (hLr : Lr = r0 * r1 * (2 * r2)) :
    ((List.range Lr).filter fun i => !lat_marked r2 i).length =
      r0 * r1 * (2 * r2) - 2 * (r0 * r1) := by
  rw [← List.countP_eq_length_filter]
  have hpred : ∀ i ∈ List.range Lr,
      ((!lat_marked r2 i) = true) ↔
      ((fun i => decide (1 ≤ i % (2 * r2) ∧ i % (2 * r2) < 2 * r2 - 1)) i = true) := by
    intro i _
    rw [lat_unmarked_iff r2 i h2]
  rw [List.countP_congr hpred, hLr, countP_range_mod_band]
  have hmod : ∀ i ∈ List.range (2 * r2),
      ((fun i => decide (1 ≤ i % (2 * r2) ∧ i % (2 * r2) < 2 * r2 - 1)) i = true) ↔
      ((fun i => decide (1 ≤ i ∧ i < 2 * r2 - 1)) i = true) := by
    intro i hi
    rw [List.mem_range] at hi
    simp only [Nat.mod_eq_of_lt hi]
  rw [List.countP_congr hmod, countP_range_band]
  have hmin : min (2 * r2 - 1) (2 * r2) - min 1 (2 * r2) = 2 * r2 - 2 := by omega
  rw [hmin]
  obtain ⟨s, rfl⟩ : ∃ s, r2 = s + 1 := ⟨r2 - 1, by omega⟩
  have e1 : 2 * (s + 1) - 2 = 2 * s := by omega
  rw [e1]
  have e2 : r0 * r1 * (2 * (s + 1)) = r0 * r1 * (2 * s) + 2 * (r0 * r1) := by ring
  omega

/-- C5: for every rep with positive components, positive `m`, any
finite-entried square input Hessian with `3*m*r0*r1*2*r2` rows and any
finite-entried lattice-point array with `r0*r1*2*r2` rows, the compacted
Hessian returned by mitigate_periodic_effect is square with exactly
`3*m*(r0*r1*2*r2 - 2*r0*r1)` kept rows and kept columns, and the compacted
lattice-point array has `r0*r1*2*r2 - 2*r0*r1` rows. -/
theorem claim_C5_conditioning_dimensions (r0 r1 r2 m N Lr : ℕ)
    (H L : ℕ → ℕ → WithTop ℚ)
    (h0 : 1 ≤ r0) (h1 : 1 ≤ r1) (h2 : 1 ≤ r2) (hm : 1 ≤ m)
    (hN : N = 3 * m * (r0 * r1 * (2 * r2)))
    (hLr : Lr = r0 * r1 * (2 * r2))
    (hfin : ∀ i j, i < N → j < N → H i j ≠ ⊤)
    (hLfin : ∀ i j, i < Lr → j < 3 → L i j ≠ ⊤) :
    (hsn_kept_rows H N m r2).length = 3 * m * (r0 * r1 * (2 * r2) - 2 * (r0 * r1)) ∧
    (hsn_kept_cols H N m r2).length = 3 * m * (r0 * r1 * (2 * r2) - 2 * (r0 * r1)) ∧
    (lat_kept_rows L Lr r2).length = r0 * r1 * (2 * r2) - 2 * (r0 * r1) := by
  have hMN : r2 = 1 ∨ m * 3 < N := by
    rcases Nat.eq_or_lt_of_le h2 with h | h
    · exact Or.inl h.symm
    · right
      rw [hN]
      have ha : 0 < r0 * r1 := Nat.mul_pos h0 h1
      have hb : 4 ≤ 2 * r2 := by omega
      have hc : 2 * r2 ≤ r0 * r1 * (2 * r2) := Nat.le_mul_of_pos_left _ ha
      have hd := Nat.mul_le_mul_left (3 * m) (le_trans hb hc)
      omega
  refine ⟨?_, ?_, ?_⟩
  · by_cases hr2 : r2 = 1
    · subst hr2
      rw [hsn_kept_rows_r2_one]
      have h : r0 * r1 * (2 * 1) - 2 * (r0 * r1) = 0 := by omega
      rw [h, Nat.mul_zero]
      rfl
    · have hr2' : 2 ≤ r2 := by omega
      have hMN' : m * 3 < N := by
        rcases hMN with h | h
        · exact absurd h hr2
        · exact h
      rw [hsn_kept_rows_eq H N m r2 hm hr2' hMN' hfin,
        unmarked_filter_length H r0 r1 r2 m N h2 hN]
  · by_cases hr2 : r2 = 1
    · subst hr2
      rw [hsn_kept_cols_r2_one]
      have h : r0 * r1 * (2 * 1) - 2 * (r0 * r1) = 0 := by omega
      rw [h, Nat.mul_zero]
      rfl
    · have hr2' : 2 ≤ r2 := by omega
      have hMN' : m * 3 < N := by
        rcases hMN with h | h
        · exact absurd h hr2
        · exact h
      rw [hsn_kept_cols_eq H N m r2 hm hr2' hMN' hfin,
        unmarked_filter_length H r0 r1 r2 m N h2 hN]
  · rw [lat_kept_rows_eq L Lr r2 hLfin, lat_filter_length r0 r1 r2 Lr h2 hLr]

/-- Witness for C5: the concrete all-zero 12-by-12 Hessian with
`rep = [1, 1, 2]`, one atom per cell, and the 4-row lattice array: six rows
and columns are kept, and two lattice points survive. -/
theorem claim_C5_witness :
    (hsn_kept_rows (fun (_ _ : ℕ) => (0 : WithTop ℚ)) 12 1 2).length = 6 ∧
    (hsn_kept_cols (fun (_ _ : ℕ) => (0 : WithTop ℚ)) 12 1 2).length = 6 ∧
    (lat_kept_rows (fun (_ _ : ℕ) => (0 : WithTop ℚ)) 4 2).length = 2 :=
  claim_C5_conditioning_dimensions 1 1 2 1 12 4
    (fun (_ _ : ℕ) => (0 : WithTop ℚ)) (fun (_ _ : ℕ) => (0 : WithTop ℚ))
    (le_refl 1) (le_refl 1) (by omega) (le_refl 1) (by decide) (by decide)
    (fun _ _ _ _ => WithTop.zero_ne_top) (fun _ _ _ _ => WithTop.zero_ne_top)

/-- C10: `mitigate_periodic_effect` mutates its argument arrays in place.  In
the state-passing model the post-call contents of the caller's `hessian`
array are `masked_hessian H` and the post-call contents of
`crystal_info['lattice_points']` are `masked_lattice L`: every edge-marked
row and column holds `inf` afterwards, so for finite inputs the original
values at those positions are gone, and a second call on the same objects
reads the masked arrays (whose marked entries are already `inf`), not the
original data. -/
theorem claim_C10_in_place_mutation :
    ∀ (H L : ℕ → ℕ → WithTop ℚ) (m r2 : ℕ),
      (∀ i j, (hsn_marked m r2 i || hsn_marked m r2 j) = true →
        masked_hessian H m r2 i j = ⊤) ∧
      (∀ i j, lat_marked r2 i = true → masked_lattice L r2 i j = ⊤) ∧
      (1 ≤ m → H 0 0 ≠ ⊤ →
        masked_hessian H m r2 0 0 ≠ H 0 0 ∧
        masked_hessian (masked_hessian H m r2) m r2 0 0 ≠ H 0 0) ∧
      (L 0 0 ≠ ⊤ → masked_lattice L r2 0 0 ≠ L 0 0) := by
  intro H L m r2
  have hm0 : ∀ hm : 1 ≤ m, hsn_marked m r2 0 = true := by
    intro hm
    unfold hsn_marked
    rw [Bool.or_eq_true]
    left
    simp only [Nat.zero_mod, decide_eq_true_eq]
    omega
  have hl0 : lat_marked r2 0 = true := by
    unfold lat_marked
    rw [Bool.or_eq_true]
    left
    simp
  refine ⟨?_, ?_, ?_, ?_⟩
  · intro i j h
    unfold masked_hessian
    rw [h]
    rfl
  · intro i j h
    unfold masked_lattice
    rw [h]
    rfl
  · intro hm hne
    have hmask : ∀ H' : ℕ → ℕ → WithTop ℚ, masked_hessian H' m r2 0 0 = ⊤ := by
      intro H'
      unfold masked_hessian
      rw [hm0 hm]
      rfl
    exact ⟨by rw [hmask]; exact fun heq => hne heq.symm,
      by rw [hmask]; exact fun heq => hne heq.symm⟩
  · intro hne
    unfold masked_lattice
    rw [hl0]
    exact fun heq => hne heq.symm

/-- Witness for C10: the concrete all-zero arrays with `m = r2 = 1`: entry
(0,0) of the hessian is overwritten with `inf`, also as seen by a second
call. -/
theorem claim_C10_witness :
    masked_hessian (fun (_ _ : ℕ) => (0 : WithTop ℚ)) 1 1 0 0 ≠
      (fun (_ _ : ℕ) => (0 : WithTop ℚ)) 0 0 ∧
    masked_hessian (masked_hessian (fun (_ _ : ℕ) => (0 : WithTop ℚ)) 1 1) 1 1 0 0 ≠
      (fun (_ _ : ℕ) => (0 : WithTop ℚ)) 0 0 :=
  (claim_C10_in_place_mutation (fun (_ _ : ℕ) => (0 : WithTop ℚ))
    (fun (_ _ : ℕ) => (0 : WithTop ℚ)) 1 1).2.2.1 (le_refl 1) WithTop.zero_ne_top

/-- C4 (amended): when a stencil offset resolves to a flat block index
outside `[0, total_blocks)`, `matrix_decomposition` does not fail with a
bounds error: NumPy basic slicing silently normalizes the bounds, and a
negative flat index IS interpreted from the end of the matrix — when the
whole column slice is negative but within `-N`, the selected column indices
are exactly `[N + 3*m*idx, N + 3*m*(idx + block_size))`, i.e. counted from
the end. -/
theorem claim_C4_amended :
    ∀ (N m bs : ℕ) (bi0 bi1 bi2 r0 r2 : ℤ) (i : Fin 9),
      elements_idx bi0 bi1 bi2 r0 r2 i < 0 →
      -(N : ℤ) ≤ 3 * (m : ℤ) * elements_idx bi0 bi1 bi2 r0 r2 i →
      3 * (m : ℤ) * (elements_idx bi0 bi1 bi2 r0 r2 i + (bs : ℤ)) < 0 →
      1 ≤ m →
      ∀ t : ℕ, t ∈ block_col_idx N m bs bi0 bi1 bi2 r0 r2 i ↔
        ((N : ℤ) + 3 * (m : ℤ) * elements_idx bi0 bi1 bi2 r0 r2 i ≤ (t : ℤ) ∧
          (t : ℤ) < (N : ℤ) + 3 * (m : ℤ) * (elements_idx bi0 bi1 bi2 r0 r2 i + (bs : ℤ))) := by
  intro N m bs bi0 bi1 bi2 r0 r2 i hneg hlo hhi hm t
  have hstart : 3 * (m : ℤ) * elements_idx bi0 bi1 bi2 r0 r2 i < 0 := by
    apply mul_neg_of_pos_of_neg _ hneg
    have : (1 : ℤ) ≤ (m : ℤ) := by exact_mod_cast hm
    linarith
  unfold block_col_idx py_slice slice_bound
  rw [if_pos hstart, if_pos hhi, List.mem_range'_1]
  omega

/-- C4 counterexample: with `block_indices = [1,1,1]`, `rep = [1,*,1]`,
`natm = block_size = 1` and a 6-row Hessian, the `H1` stencil offset
`(0,-1,0)` resolves to flat block index `-2`, outside `[0, 2)`; the
decomposition does not fail — it silently selects columns `[0, 1, 2]`
(wrapped from the end of the matrix: `6 - 6` through `6 - 3`). -/
theorem claim_C4_counterexample :
    elements_idx 1 1 1 1 1 1 < 0 ∧
    block_col_idx 6 1 1 1 1 1 1 1 1 = [0, 1, 2] ∧
    block_col_idx 6 1 1 1 1 1 1 1 1 ≠ [] := by
  refine ⟨by decide, by decide, by decide⟩

/-- Witness for C4: the amended wrap characterization applied at the
concrete out-of-range input. -/
theorem claim_C4_witness :
    0 ∈ block_col_idx 6 1 1 1 1 1 1 1 1 ↔
      ((6 : ℤ) + 3 * ((1 : ℕ) : ℤ) * elements_idx 1 1 1 1 1 1 ≤ ((0 : ℕ) : ℤ) ∧
        ((0 : ℕ) : ℤ) <
          (6 : ℤ) + 3 * ((1 : ℕ) : ℤ) * (elements_idx 1 1 1 1 1 1 + ((1 : ℕ) : ℤ))) :=
  claim_C4_amended 6 1 1 1 1 1 1 1 1 (by decide) (by decide) (by decide) (le_refl 1) 0

theorem wv_lo_le_hi (L : ℝ) (hL : 0 < L) : wv_lo L ≤ wv_hi L := by
  unfold wv_lo wv_hi
  have h : 0 ≤ Real.sqrt 2 * Real.pi / L := by positivity
  linarith

theorem np_linspace_mem (lo hi : ℝ) (hle : lo ≤ hi) (n i : ℕ) (hin : i < n) :
    np_linspace lo hi n i ∈ Set.Icc lo hi := by
  unfold np_linspace
  by_cases h1 : n ≤ 1
  · rw [if_pos h1]
    exact ⟨le_refl lo, hle⟩
  · rw [if_neg h1]
    have hn2 : 2 ≤ n := by omega
    have hpos : (0 : ℝ) < (n : ℝ) - 1 := by
      have h2 : (2 : ℝ) ≤ (n : ℝ) := by exact_mod_cast hn2
      linarith
    have hi1 : ((i + 1 : ℕ) : ℝ) ≤ (n : ℝ) := Nat.cast_le.mpr hin
    push_cast at hi1
    constructor
    · have hnum : 0 ≤ (i : ℝ) * (hi - lo) :=
        mul_nonneg (Nat.cast_nonneg i) (by linarith)
      have hq : 0 ≤ (i : ℝ) * (hi - lo) / ((n : ℝ) - 1) := div_nonneg hnum hpos.le
      linarith
    · have key : (i : ℝ) * (hi - lo) / ((n : ℝ) - 1) ≤ hi - lo := by
        rw [div_le_iff₀ hpos]
        calc (i : ℝ) * (hi - lo) ≤ ((n : ℝ) - 1) * (hi - lo) :=
              mul_le_mul_of_nonneg_right (by linarith) (by linarith)
          _ = (hi - lo) * ((n : ℝ) - 1) := by ring
      linarith

theorem np_linspace_zero (lo hi : ℝ) (n : ℕ) (hn : 2 ≤ n) :
    np_linspace lo hi n 0 = lo := by
  unfold np_linspace
  rw [if_neg (by omega)]
  simp

theorem np_linspace_last (lo hi : ℝ) (n : ℕ) (hn : 2 ≤ n) :
    np_linspace lo hi n (n - 1) = hi := by
  unfold np_linspace
  rw [if_neg (by omega)]
  have h1n : 1 ≤ n := by omega
  have hcast : ((n - 1 : ℕ) : ℝ) = (n : ℝ) - 1 := by
    rw [Nat.cast_sub h1n]
    simp
  rw [hcast]
  have hne : (n : ℝ) - 1 ≠ 0 := by
    have h2 : (2 : ℝ) ≤ (n : ℝ) := by exact_mod_cast hn
    linarith
  field_simp

/-- C8: for `L > 0` and `n >= 1`, `define_wavevectors` returns exactly
`n * n` wavevector pairs, every component lies in the closed interval
`[-sqrt 2 * pi / L, sqrt 2 * pi / L]`, both endpoints are attained for
`n >= 2` (at the two corner points of the grid), and for `n = 1` the output
is exactly the single point `(-sqrt 2 * pi / L, -sqrt 2 * pi / L)`. -/
theorem claim_C8_wavevector_grid :
    ∀ (L : ℝ) (n : ℕ), 0 < L → 1 ≤ n →
      (define_wavevectors L n).length = n * n ∧
      (∀ p ∈ define_wavevectors L n,
        p.1 ∈ Set.Icc (wv_lo L) (wv_hi L) ∧ p.2 ∈ Set.Icc (wv_lo L) (wv_hi L)) ∧
      (2 ≤ n → (wv_lo L, wv_lo L) ∈ define_wavevectors L n ∧
        (wv_hi L, wv_hi L) ∈ define_wavevectors L n) ∧
      (n = 1 → define_wavevectors L n = [(wv_lo L, wv_lo L)]) := by
  intro L n hL hn
  have hle := wv_lo_le_hi L hL
  refine ⟨?_, ?_, ?_, ?_⟩
  · unfold define_wavevectors
    rw [List.length_map, List.length_range]
  · intro p hp
    unfold define_wavevectors at hp
    obtain ⟨t, ht, rfl⟩ := List.mem_map.mp hp
    rw [List.mem_range] at ht
    have hn0 : 0 < n := by omega
    constructor
    · exact np_linspace_mem _ _ hle n (t / n) ((Nat.div_lt_iff_lt_mul hn0).mpr ht)
    · exact np_linspace_mem _ _ hle n (t % n) (Nat.mod_lt _ hn0)
  · intro hn2
    have hnn : 0 < n * n := by
      have : 0 < n := by omega
      exact Nat.mul_pos this this
    constructor
    · unfold define_wavevectors
      apply List.mem_map.mpr
      refine ⟨0, List.mem_range.mpr hnn, ?_⟩
      rw [Nat.zero_div, Nat.zero_mod, np_linspace_zero _ _ _ hn2]
    · unfold define_wavevectors
      apply List.mem_map.mpr
      refine ⟨n * n - 1, List.mem_range.mpr (by omega), ?_⟩
      obtain ⟨k, rfl⟩ : ∃ k, n = k + 2 := ⟨n - 2, by omega⟩
      have hsplit : (k + 2) * (k + 2) - 1 = (k + 2) * (k + 1) + (k + 1) := by
        have e : (k + 2) * (k + 2) = (k + 2) * (k + 1) + (k + 1) + 1 := by ring
        omega
      have hdiv : ((k + 2) * (k + 2) - 1) / (k + 2) = k + 2 - 1 := by
        rw [hsplit, Nat.mul_add_div (by omega), Nat.div_eq_of_lt (by omega)]
        omega
      have hmod : ((k + 2) * (k + 2) - 1) % (k + 2) = k + 2 - 1 := by
        rw [hsplit, Nat.mul_add_mod, Nat.mod_eq_of_lt (by omega)]
        omega
      rw [hdiv, hmod, np_linspace_last _ _ _ hn2]
  · intro h1
    subst h1
    unfold define_wavevectors np_linspace
    simp

/-- Witness for C8: `L = 1`, `n = 1` — one sample, exactly the lower-corner
point. -/
theorem claim_C8_witness :
    (define_wavevectors 1 1).length = 1 * 1 ∧
    define_wavevectors 1 1 = [(wv_lo 1, wv_lo 1)] :=
  ⟨(claim_C8_wavevector_grid 1 1 one_pos (le_refl 1)).1,
    (claim_C8_wavevector_grid 1 1 one_pos (le_refl 1)).2.2.2 rfl⟩

end OpenKapitza
